import Mathlib

/-!
Shallow embedding of `src/fib.c` and verification of the spec's claims.

The C program is:

```
int main(void) {
    int x, y, z;
    while (1) {
        x = 0;
        y = 1;
        do {
            printf("%d\n", x);
            z = x + y;
            x = y;
            y = z;
        } while (x < 255);
    }
}
```

We model it as a small-step state machine.  A state carries a program
location, the three `int` variables `x`, `y`, `z`, and each step may emit
the list of values printed during that step.  C `int` is 32-bit two's
complement here, so addition is modelled with an explicit wrap at `2^32`
(`add32`); the development proves that the wrap never fires on reachable
values.  The uninitialised values of `x`, `y`, `z` at program start (and
the stale values at each restart) are modelled by universally quantifying
over them.
-/

set_option maxRecDepth 40000

namespace Fib

/-- 32-bit two's-complement addition: the result of `x + y` on C `int`,
wrapped into `[-2^31, 2^31)`. -/
def add32 (a b : Int) : Int := (a + b + 2 ^ 31) % 2 ^ 32 - 2 ^ 31

/-- Program locations of `main`, one per statement of `src/fib.c`:
`outer` is the head of `while (1)` (line 8), `setX`/`setY` are the
initialisations `x = 0; y = 1;` (lines 9-10), `emit` is the `printf`
(line 12), `setZ`/`updX`/`updY` are `z = x + y; x = y; y = z;`
(lines 13-15), `test` is the `while (x < 255)` check (line 16), and
`done` is the unreachable point after the outer loop (line 18). -/
inductive Loc where
  | outer | setX | setY | emit | setZ | updX | updY | test | done
deriving DecidableEq

/-- A machine state: current location plus the variables `x`, `y`, `z`. -/
structure St where
  loc : Loc
  x : Int
  y : Int
  z : Int
deriving DecidableEq

/-- One small step of `main`.  Returns `none` only at `done` (program
exit, which is unreachable); otherwise returns the next state together
with the list of values printed during the step (`[s.x]` for the
`printf`, `[]` for every other statement). -/
def step (s : St) : Option (St × List Int) :=
  match s.loc with
  | .outer => some ({ s with loc := .setX }, [])
  | .setX  => some ({ s with loc := .setY, x := 0 }, [])
  | .setY  => some ({ s with loc := .emit, y := 1 }, [])
  | .emit  => some ({ s with loc := .setZ }, [s.x])
  | .setZ  => some ({ s with loc := .updX, z := add32 s.x s.y }, [])
  | .updX  => some ({ s with loc := .updY, x := s.y }, [])
  | .updY  => some ({ s with loc := .test, y := s.z }, [])
  | .test  => if s.x < 255 then some ({ s with loc := .emit }, [])
              else some ({ s with loc := .outer }, [])
  | .done  => none

/-- `stepN n s` runs `n` small steps from `s`, collecting everything
emitted along the way; `none` means execution reached program exit
within the `n` steps. -/
def stepN : Nat → St → Option (St × List Int)
  | 0, s => some (s, [])
  | n + 1, s => (step s).bind fun p => (stepN n p.1).map fun q => (q.1, p.2 ++ q.2)

/-- The values actually printed during one full pass of the outer loop:
fourteen Fibonacci numbers, ending at 233 (377 is never printed). -/
def cycleEmits : List Int := [0, 1, 1, 2, 3, 5, 8, 13, 21, 34, 55, 89, 144, 233]

/-- The sequence of per-cycle emissions the spec asserts (fifteen values,
ending at 377). -/
def specCycleEmits : List Int :=
  [0, 1, 1, 2, 3, 5, 8, 13, 21, 34, 55, 89, 144, 233, 377]

/-- Bounded trajectory check: `trajOkB f n s` holds when `f` holds at `s`
and at every state reached within the next `n` steps. -/
def trajOkB (f : St → Bool) : Nat → St → Bool
  | 0, s => f s
  | n + 1, s =>
    f s && match step s with
           | some p => trajOkB f n p.1
           | none => false

/-- Variable bounds that hold throughout the inner loop once `x`, `y`,
`z` are all initialised. -/
def inBounds (s : St) : Bool :=
  decide (0 ≤ s.x ∧ s.x ≤ 377 ∧ 0 ≤ s.y ∧ s.y ≤ 610 ∧ 0 ≤ s.z ∧ s.z ≤ 610)

/-- Check that a state is not at the outer-loop head. -/
def notOuter (s : St) : Bool := decide (s.loc ≠ Loc.outer)

theorem stepN_add (m n : Nat) (s : St) :
    stepN (m + n) s =
      (stepN m s).bind fun p => (stepN n p.1).map fun q => (q.1, p.2 ++ q.2) := by
  induction m generalizing s with
  | zero =>
    rw [Nat.zero_add]
    simp only [stepN, Option.some_bind]
    cases stepN n s with
    | none => simp
    | some p => simp
  | succ m ih =>
    rw [Nat.succ_add]
    simp only [stepN]
    cases hs : step s with
    | none => simp
    | some p =>
      simp only [Option.some_bind]
      rw [ih p.1]
      cases hq : stepN m p.1 with
      | none => simp
      | some q =>
        simp only [Option.some_bind, Option.map_some']
        cases hr : stepN n q.1 with
        | none => simp
        | some r => simp [List.append_assoc]

theorem stepN_one (x y z : Int) :
    stepN 1 ⟨Loc.outer, x, y, z⟩ = some (⟨Loc.setX, x, y, z⟩, []) := by
  simp [stepN, step]

theorem stepN_two (x y z : Int) :
    stepN 2 ⟨Loc.outer, x, y, z⟩ = some (⟨Loc.setY, 0, y, z⟩, []) := by
  simp [stepN, step]

theorem stepN_three (x y z : Int) :
    stepN 3 ⟨Loc.outer, x, y, z⟩ = some (⟨Loc.emit, 0, 1, z⟩, []) := by
  simp [stepN, step]

theorem stepN_four (x y z : Int) :
    stepN 4 ⟨Loc.outer, x, y, z⟩ = some (⟨Loc.setZ, 0, 1, z⟩, [0]) := by
  simp [stepN, step]

theorem step5_outer (x y z : Int) :
    stepN 5 ⟨Loc.outer, x, y, z⟩ = some (⟨Loc.updX, 0, 1, 1⟩, [0]) := by
  simp [stepN, step, add32]

theorem step2_emit (z : Int) :
    stepN 2 ⟨Loc.emit, 0, 1, z⟩ = some (⟨Loc.updX, 0, 1, 1⟩, [0]) := by
  simp [stepN, step, add32]

theorem inner68 :
    stepN 68 ⟨Loc.updX, 0, 1, 1⟩ =
      some (⟨Loc.outer, 377, 610, 610⟩,
        [1, 1, 2, 3, 5, 8, 13, 21, 34, 55, 89, 144, 233]) := by
  decide

theorem cycle73 (x y z : Int) :
    stepN 73 ⟨Loc.outer, x, y, z⟩ =
      some (⟨Loc.outer, 377, 610, 610⟩, cycleEmits) := by
  have h : (73 : Nat) = 5 + 68 := rfl
  rw [h, stepN_add, step5_outer]
  simp [inner68, cycleEmits]

theorem cycles (k : Nat) (x y z : Int) :
    ∃ sf, stepN (73 * k) ⟨Loc.outer, x, y, z⟩ =
      some (sf, (List.replicate k cycleEmits).flatten) := by
  induction k generalizing x y z with
  | zero => exact ⟨⟨Loc.outer, x, y, z⟩, rfl⟩
  | succ k ih =>
    obtain ⟨sf, hf⟩ := ih 377 610 610
    refine ⟨sf, ?_⟩
    have h : 73 * (k + 1) = 73 + 73 * k := by ring
    rw [h, stepN_add, cycle73]
    simp only [Option.some_bind, hf, Option.map_some']
    simp [List.replicate_succ, List.flatten_cons]

theorem trajOk_spec (f : St → Bool) :
    ∀ m n s, m ≤ n → trajOkB f n s = true →
      ∀ s' e, stepN m s = some (s', e) → f s' = true := by
  intro m
  induction m with
  | zero =>
    intro n s _ htraj s' e h
    simp only [stepN, Option.some.injEq, Prod.mk.injEq] at h
    obtain ⟨h1, _⟩ := h
    have hfs : f s = true := by
      cases n with
      | zero => simpa [trajOkB] using htraj
      | succ n =>
        simp only [trajOkB, Bool.and_eq_true] at htraj
        exact htraj.1
    rw [← h1]; exact hfs
  | succ m ih =>
    intro n s hmn htraj s' e h
    cases n with
    | zero => omega
    | succ n =>
      cases hs : step s with
      | none =>
        simp only [stepN, hs, Option.none_bind] at h
        simp at h
      | some p =>
        simp only [trajOkB, Bool.and_eq_true, hs] at htraj
        obtain ⟨_, hrest⟩ := htraj
        simp only [stepN, hs, Option.some_bind] at h
        cases hq : stepN m p.1 with
        | none => rw [hq] at h; simp at h
        | some q =>
          rw [hq] at h
          simp only [Option.map_some', Option.some.injEq, Prod.mk.injEq] at h
          obtain ⟨h1, _⟩ := h
          rw [← h1]
          exact ih n p.1 (by omega) hrest q.1 q.2 hq

theorem inner_inBounds : trajOkB inBounds 68 ⟨Loc.updX, 0, 1, 1⟩ = true := by
  decide

theorem inner_notOuter : trajOkB notOuter 67 ⟨Loc.updX, 0, 1, 1⟩ = true := by
  decide

theorem progress (s : St) (h : s.loc ≠ Loc.done) :
    ∃ s' e, step s = some (s', e) ∧ s'.loc ≠ Loc.done := by
  obtain ⟨l, x, y, z⟩ := s
  cases l with
  | outer => exact ⟨_, _, rfl, by simp⟩
  | setX => exact ⟨_, _, rfl, by simp⟩
  | setY => exact ⟨_, _, rfl, by simp⟩
  | emit => exact ⟨_, _, rfl, by simp⟩
  | setZ => exact ⟨_, _, rfl, by simp⟩
  | updX => exact ⟨_, _, rfl, by simp⟩
  | updY => exact ⟨_, _, rfl, by simp⟩
  | test =>
    by_cases hx : x < 255
    · exact ⟨⟨Loc.emit, x, y, z⟩, [], by simp [step, hx], by simp⟩
    · exact ⟨⟨Loc.outer, x, y, z⟩, [], by simp [step, hx], by simp⟩
  | done => exact absurd rfl h

theorem stepN_progress (n : Nat) :
    ∀ s : St, s.loc ≠ Loc.done →
      ∃ p, stepN n s = some p ∧ p.1.loc ≠ Loc.done := by
  induction n with
  | zero => intro s h; exact ⟨(s, []), rfl, h⟩
  | succ n ih =>
    intro s h
    obtain ⟨s', e, hs, h'⟩ := progress s h
    obtain ⟨p, hp, hloc⟩ := ih s' h'
    refine ⟨(p.1, e ++ p.2), ?_, hloc⟩
    simp [stepN, hs, hp]

theorem add32_no_wrap (a b : Int) (h1 : -(2 ^ 31) ≤ a + b) (h2 : a + b < 2 ^ 31) :
    add32 a b = a + b := by
  unfold add32
  have h3 : 0 ≤ a + b + 2 ^ 31 := by linarith
  have h4 : a + b + 2 ^ 31 < 2 ^ 32 := by
    have e : (2 : Int) ^ 32 = 2 ^ 31 + 2 ^ 31 := by norm_num
    linarith [e]
  rw [Int.emod_eq_of_lt h3 h4]
  ring

theorem emitted_prefix (n : Nat) (x y z : Int) (s : St) (e : List Int)
    (h : stepN n ⟨Loc.outer, x, y, z⟩ = some (s, e)) :
    ∃ t, e ++ t = (List.replicate (n + 2) cycleEmits).flatten := by
  obtain ⟨sf, hf⟩ := cycles (n + 2) x y z
  obtain ⟨m, hm⟩ : ∃ m, 73 * (n + 2) = n + m := ⟨73 * (n + 2) - n, by omega⟩
  rw [hm, stepN_add, h] at hf
  simp only [Option.some_bind] at hf
  cases hq : stepN m s with
  | none => rw [hq] at hf; simp at hf
  | some q =>
    rw [hq] at hf
    simp only [Option.map_some', Option.some.injEq, Prod.mk.injEq] at hf
    exact ⟨q.2, hf.2⟩

theorem emitted_mem (n : Nat) (x y z : Int) (s : St) (e : List Int)
    (h : stepN n ⟨Loc.outer, x, y, z⟩ = some (s, e)) :
    ∀ v ∈ e, v ∈ cycleEmits := by
  obtain ⟨t, ht⟩ := emitted_prefix n x y z s e h
  intro v hv
  have hvf : v ∈ (List.replicate (n + 2) cycleEmits).flatten := by
    rw [← ht]; exact List.mem_append_left t hv
  rw [List.mem_flatten] at hvf
  obtain ⟨l, hl, hvl⟩ := hvf
  rwa [List.eq_of_mem_replicate hl] at hvl

/-- C1 counterexample: run one full pass of the outer loop (73 small
steps, returning to the loop head with no earlier visit of it): the
values emitted are `0,...,233`, which differ from the spec's claimed
list `0,...,233,377`, and 377 is never among them. -/
theorem c1_spec_list_cex :
    stepN 73 ⟨Loc.outer, 0, 0, 0⟩ =
      some (⟨Loc.outer, 377, 610, 610⟩, cycleEmits) ∧
    (∀ m, m < 73 → 0 < m →
      (stepN m ⟨Loc.outer, 0, 0, 0⟩).map (fun p => p.1.loc) ≠ some Loc.outer) ∧
    cycleEmits ≠ specCycleEmits ∧ (377 : Int) ∉ cycleEmits := by
  exact ⟨cycle73 0 0 0, by decide, by decide, by decide⟩

/-- C1 (amended): for every restart cycle of the outer loop — from the
loop head with arbitrary variable contents, 73 steps return to the loop
head for the first time — the values emitted are exactly
`0, 1, 1, 2, 3, 5, 8, 13, 21, 34, 55, 89, 144, 233` (fourteen values;
377 is never emitted). -/
theorem c1_cycle_emits_amended (x y z : Int) :
    stepN 73 ⟨Loc.outer, x, y, z⟩ =
      some (⟨Loc.outer, 377, 610, 610⟩, cycleEmits) ∧
    ∀ m, 0 < m → m < 73 → ∀ s e,
      stepN m ⟨Loc.outer, x, y, z⟩ = some (s, e) → s.loc ≠ Loc.outer := by
  refine ⟨cycle73 x y z, ?_⟩
  intro m hm0 hm73 s e h
  rcases m with _ | _ | _ | _ | _ | m
  · exact absurd hm0 (by omega)
  · rw [stepN_one x y z] at h
    simp only [Option.some.injEq, Prod.mk.injEq] at h
    obtain ⟨h1, _⟩ := h
    rw [← h1]; simp
  · rw [stepN_two x y z] at h
    simp only [Option.some.injEq, Prod.mk.injEq] at h
    obtain ⟨h1, _⟩ := h
    rw [← h1]; simp
  · rw [stepN_three x y z] at h
    simp only [Option.some.injEq, Prod.mk.injEq] at h
    obtain ⟨h1, _⟩ := h
    rw [← h1]; simp
  · rw [stepN_four x y z] at h
    simp only [Option.some.injEq, Prod.mk.injEq] at h
    obtain ⟨h1, _⟩ := h
    rw [← h1]; simp
  · have hm : m + 1 + 1 + 1 + 1 + 1 = 5 + m := by omega
    rw [hm, stepN_add, step5_outer] at h
    simp only [Option.some_bind] at h
    cases hq : stepN m ⟨Loc.updX, 0, 1, 1⟩ with
    | none => rw [hq] at h; simp at h
    | some q =>
      rw [hq] at h
      simp only [Option.map_some', Option.some.injEq, Prod.mk.injEq] at h
      obtain ⟨h1, _⟩ := h
      rw [← h1]
      have hb := trajOk_spec notOuter m 67 ⟨Loc.updX, 0, 1, 1⟩ (by omega)
        inner_notOuter q.1 q.2 hq
      simpa [notOuter] using hb

/-- C1 witness: the amended cycle theorem instantiated at concrete stale
variable contents. -/
theorem c1_cycle_emits_witness :
    stepN 73 ⟨Loc.outer, 9, 9, 9⟩ =
      some (⟨Loc.outer, 377, 610, 610⟩, cycleEmits) :=
  (c1_cycle_emits_amended 9 9 9).1

/-- C2 counterexample: truncating the run to its first 16 output lines
(28 lines have been produced after 146 steps) does not give the spec's
claimed prefix ending `..., 233, 377, 0`; it gives `..., 144, 233, 0, 1`. -/
theorem c2_spec_lines_cex :
    (stepN 146 ⟨Loc.outer, 0, 0, 0⟩).map (fun p => p.2.take 16) ≠
      some [0, 1, 1, 2, 3, 5, 8, 13, 21, 34, 55, 89, 144, 233, 377, 0] ∧
    (stepN 146 ⟨Loc.outer, 0, 0, 0⟩).map (fun p => p.2.take 16) =
      some [0, 1, 1, 2, 3, 5, 8, 13, 21, 34, 55, 89, 144, 233, 0, 1] := by
  exact ⟨by decide, by decide⟩

/-- C2 (amended): in any run of the program truncated to its first N
output lines (N ≥ 16), lines 1 through 14 are exactly
`0, 1, 1, 2, 3, 5, 8, 13, 21, 34, 55, 89, 144, 233`, line 15 is `0`
again — the inner loop restarts and re-emits 0 immediately after
emitting 233 — and line 16 is `1`. -/
theorem c2_first16_amended (n : Nat) (x y z : Int) (s : St) (e : List Int)
    (h : stepN n ⟨Loc.outer, x, y, z⟩ = some (s, e)) (hlen : 16 ≤ e.length) :
    e.take 16 = [0, 1, 1, 2, 3, 5, 8, 13, 21, 34, 55, 89, 144, 233, 0, 1] := by
  obtain ⟨t, ht⟩ := emitted_prefix n x y z s e h
  have h16 : e.take 16 = (e ++ t).take 16 :=
    (List.take_append_of_le_length (by omega)).symm
  rw [ht] at h16
  have hrep : List.replicate (n + 2) cycleEmits =
      cycleEmits :: cycleEmits :: List.replicate n cycleEmits := by
    rw [show n + 2 = (n + 1) + 1 from rfl, List.replicate_succ,
      List.replicate_succ]
  rw [hrep] at h16
  simp only [List.flatten_cons] at h16
  rw [← List.append_assoc] at h16
  rw [List.take_append_of_le_length (by decide)] at h16
  rw [h16]
  decide

/-- C2 witness: the amended first-16-lines theorem applied to the
concrete 146-step run (28 output lines). -/
theorem c2_first16_witness :
    ([0, 1, 1, 2, 3, 5, 8, 13, 21, 34, 55, 89, 144, 233,
      0, 1, 1, 2, 3, 5, 8, 13, 21, 34, 55, 89, 144, 233] : List Int).take 16 =
      [0, 1, 1, 2, 3, 5, 8, 13, 21, 34, 55, 89, 144, 233, 0, 1] :=
  c2_first16_amended 146 0 0 0 ⟨Loc.outer, 377, 610, 610⟩
    [0, 1, 1, 2, 3, 5, 8, 13, 21, 34, 55, 89, 144, 233,
     0, 1, 1, 2, 3, 5, 8, 13, 21, 34, 55, 89, 144, 233]
    (by decide) (by decide)

/-- C3 counterexample: the inner loop's final test happens at a state
where `x = 377 ≥ 255` (after 72 steps of the first cycle), yet 377 is
not among the emitted values — the value that makes `x >= 255` hold is
not itself emitted, contrary to the claim. -/
theorem c3_emitted_threshold_cex :
    stepN 72 ⟨Loc.outer, 0, 0, 0⟩ =
      some (⟨Loc.test, 377, 610, 610⟩, cycleEmits) ∧
    ¬(377 : Int) < 255 ∧ (377 : Int) ∉ cycleEmits := by
  exact ⟨by decide, by decide, by decide⟩

/-- C3 (amended): the inner loop is execute-then-check — in every inner
iteration the value is emitted and the state is advanced before the
condition `x < 255` is tested — but the test reads the already-advanced
`x`, which was not the emitted value, so the value that makes
`x >= 255` hold (377) is never emitted; the last emitted value of a
cycle is 233. -/
theorem c3_execute_then_check_amended :
    (∀ x y z : Int, stepN 4 ⟨Loc.emit, x, y, z⟩ =
      some (⟨Loc.test, y, add32 x y, add32 x y⟩, [x])) ∧
    stepN 72 ⟨Loc.outer, 0, 0, 0⟩ =
      some (⟨Loc.test, 377, 610, 610⟩, cycleEmits) ∧
    ¬(377 : Int) < 255 ∧ (377 : Int) ∉ cycleEmits ∧
    cycleEmits.getLast? = some 233 := by
  refine ⟨?_, by decide, by decide, by decide, by decide⟩
  intro x y z
  simp [stepN, step]

/-- C4: each outer iteration initialises `x = 0`, `y = 1` and reaches
the emit point with `z` untouched; each inner iteration, in order,
emits `x`, computes `z = x + y` (32-bit addition), sets `x = y`, sets
`y = z`, and continues at the emit point exactly when the updated `x`
(the old `y`) is `< 255`, otherwise returns to the outer-loop head. -/
theorem c4_init_and_iter (x y z : Int) :
    stepN 3 ⟨Loc.outer, x, y, z⟩ = some (⟨Loc.emit, 0, 1, z⟩, []) ∧
    stepN 5 ⟨Loc.emit, x, y, z⟩ =
      some (⟨if y < 255 then Loc.emit else Loc.outer,
             y, add32 x y, add32 x y⟩, [x]) := by
  refine ⟨stepN_three x y z, ?_⟩
  by_cases hy : y < 255 <;> simp [stepN, step, hy]

/-- C4 witness: the initialisation-and-iteration theorem at concrete
variable contents. -/
theorem c4_init_and_iter_witness :
    stepN 3 ⟨Loc.outer, 5, 7, 9⟩ = some (⟨Loc.emit, 0, 1, 9⟩, []) ∧
    stepN 5 ⟨Loc.emit, 5, 7, 9⟩ =
      some (⟨if (7 : Int) < 255 then Loc.emit else Loc.outer,
             7, add32 5 7, add32 5 7⟩, [5]) :=
  c4_init_and_iter 5 7 9

/-- C5: every value the program ever emits — in any number of steps
from program start, with arbitrary initial contents of the
uninitialised variables — is non-negative. -/
theorem c5_emits_nonneg (n : Nat) (x y z : Int) (s : St) (e : List Int)
    (h : stepN n ⟨Loc.outer, x, y, z⟩ = some (s, e)) :
    ∀ v ∈ e, 0 ≤ v := by
  intro v hv
  have hall : ∀ w ∈ cycleEmits, (0 : Int) ≤ w := by decide
  exact hall v (emitted_mem n x y z s e h v hv)

/-- C5 witness: the non-negativity theorem applied to the 73-step run,
at the emitted value 233. -/
theorem c5_emits_nonneg_witness : (0 : Int) ≤ 233 :=
  c5_emits_nonneg 73 0 0 0 ⟨Loc.outer, 377, 610, 610⟩ cycleEmits
    (cycle73 0 0 0) 233 (by decide)

/-- C6: every outer-loop cycle produces a sequence of emitted values
identical to that of every other cycle — one full pass of the outer
loop behaves the same from the loop head regardless of the incoming
variable contents, and always emits `cycleEmits`. -/
theorem c6_cycles_identical (x₁ y₁ z₁ x₂ y₂ z₂ : Int) :
    stepN 73 ⟨Loc.outer, x₁, y₁, z₁⟩ = stepN 73 ⟨Loc.outer, x₂, y₂, z₂⟩ ∧
    (stepN 73 ⟨Loc.outer, x₁, y₁, z₁⟩).map (fun p => p.2) = some cycleEmits := by
  rw [cycle73, cycle73]
  exact ⟨rfl, rfl⟩

/-- C6 witness: two cycles with different stale variable contents
produce the same result. -/
theorem c6_cycles_identical_witness :
    stepN 73 ⟨Loc.outer, 1, 2, 3⟩ = stepN 73 ⟨Loc.outer, 4, 5, 6⟩ ∧
    (stepN 73 ⟨Loc.outer, 1, 2, 3⟩).map (fun p => p.2) = some cycleEmits :=
  c6_cycles_identical 1 2 3 4 5 6

/-- C7: no arithmetic overflow — at every point of every inner-loop
execution (which starts at the emit point with `x = 0`, `y = 1` and
lasts 70 steps), `x` and `y` stay within the 32-bit signed range, as
does `z` once it has been assigned (from step 2 on), and the addition
`x + y` is itself within range, so the wrapped 32-bit addition agrees
with exact integer addition.  The bound holds for every cycle because
every cycle starts the inner loop with `x = 0`, `y = 1` and some stale
`z`. -/
theorem c7_no_overflow (z₀ : Int) (n : Nat) (hn : n ≤ 70) (s : St)
    (e : List Int) (h : stepN n ⟨Loc.emit, 0, 1, z₀⟩ = some (s, e)) :
    (-(2 ^ 31) ≤ s.x ∧ s.x < 2 ^ 31) ∧ (-(2 ^ 31) ≤ s.y ∧ s.y < 2 ^ 31) ∧
    (2 ≤ n → -(2 ^ 31) ≤ s.z ∧ s.z < 2 ^ 31) ∧
    -(2 ^ 31) ≤ s.x + s.y ∧ s.x + s.y < 2 ^ 31 ∧
    add32 s.x s.y = s.x + s.y := by
  rcases n with _ | _ | m
  · simp only [stepN, Option.some.injEq, Prod.mk.injEq] at h
    obtain ⟨h1, _⟩ := h
    rw [← h1]
    refine ⟨⟨by norm_num, by norm_num⟩, ⟨by norm_num, by norm_num⟩,
      fun h2 => absurd h2 (by norm_num), by norm_num, by norm_num, ?_⟩
    show add32 0 1 = 0 + 1
    norm_num [add32]
  · have h1 : stepN 1 ⟨Loc.emit, 0, 1, z₀⟩ =
        some (⟨Loc.setZ, 0, 1, z₀⟩, [0]) := by
      simp [stepN, step]
    rw [h1] at h
    simp only [Option.some.injEq, Prod.mk.injEq] at h
    obtain ⟨h2, _⟩ := h
    rw [← h2]
    refine ⟨⟨by norm_num, by norm_num⟩, ⟨by norm_num, by norm_num⟩,
      fun hc => absurd hc (by norm_num), by norm_num, by norm_num, ?_⟩
    show add32 0 1 = 0 + 1
    norm_num [add32]
  · have hm : m + 1 + 1 = 2 + m := by omega
    rw [hm, stepN_add, step2_emit] at h
    simp only [Option.some_bind] at h
    cases hq : stepN m ⟨Loc.updX, 0, 1, 1⟩ with
    | none => rw [hq] at h; simp at h
    | some q =>
      rw [hq] at h
      simp only [Option.map_some', Option.some.injEq, Prod.mk.injEq] at h
      obtain ⟨h1, _⟩ := h
      have hb := trajOk_spec inBounds m 68 ⟨Loc.updX, 0, 1, 1⟩ (by omega)
        inner_inBounds q.1 q.2 hq
      simp only [inBounds, decide_eq_true_eq] at hb
      obtain ⟨hx0, hx1, hy0, hy1, hz0, hz1⟩ := hb
      rw [← h1]
      have hc1 : -(2 ^ 31 : Int) ≤ 0 := by norm_num
      have hc2 : (1221 : Int) < 2 ^ 31 := by norm_num
      refine ⟨⟨by linarith, by linarith⟩, ⟨by linarith, by linarith⟩,
        fun _ => ⟨by linarith, by linarith⟩, by linarith, by linarith, ?_⟩
      exact add32_no_wrap _ _ (by linarith) (by linarith)

/-- C7 witness: the no-overflow theorem applied to the full 70-step
inner-loop run of the first cycle. -/
theorem c7_no_overflow_witness :
    ((-(2 ^ 31) : Int) ≤ 377 ∧ (377 : Int) < 2 ^ 31) ∧
    ((-(2 ^ 31) : Int) ≤ 610 ∧ (610 : Int) < 2 ^ 31) ∧
    (2 ≤ 70 → (-(2 ^ 31) : Int) ≤ 610 ∧ (610 : Int) < 2 ^ 31) ∧
    (-(2 ^ 31) : Int) ≤ 377 + 610 ∧ (377 : Int) + 610 < 2 ^ 31 ∧
    add32 377 610 = 377 + 610 :=
  c7_no_overflow 0 70 (by norm_num) ⟨Loc.outer, 377, 610, 610⟩ cycleEmits
    (by decide)

/-- C8: the program never terminates — after any number of steps from
program start (with arbitrary junk in the uninitialised variables) the
machine is in a defined state, that state is not the program-exit
location after the outer loop, and a further step is always possible. -/
theorem c8_never_terminates (n : Nat) (x y z : Int) :
    ∃ p, stepN n ⟨Loc.outer, x, y, z⟩ = some p ∧ p.1.loc ≠ Loc.done ∧
      (step p.1).isSome = true := by
  obtain ⟨p, hp, hl⟩ := stepN_progress n ⟨Loc.outer, x, y, z⟩ (by simp)
  obtain ⟨s', e', hs, _⟩ := progress p.1 hl
  exact ⟨p, hp, hl, by rw [hs]; rfl⟩

/-- C8 witness: the non-termination theorem after 100 steps from a
concrete start. -/
theorem c8_never_terminates_witness :
    ∃ p, stepN 100 ⟨Loc.outer, 0, 0, 0⟩ = some p ∧ p.1.loc ≠ Loc.done ∧
      (step p.1).isSome = true :=
  c8_never_terminates 100 0 0 0

/-- C9: every execution of the inner do-while loop started from
`x = 0`, `y = 1` (with any stale `z`) terminates: after finitely many
steps (70) it reaches the outer-loop head, having emitted the fourteen
values of `cycleEmits`. -/
theorem c9_inner_terminates (z : Int) :
    ∃ n s e, 0 < n ∧ stepN n ⟨Loc.emit, 0, 1, z⟩ = some (s, e) ∧
      s.loc = Loc.outer ∧ e = cycleEmits := by
  refine ⟨70, ⟨Loc.outer, 377, 610, 610⟩, cycleEmits, by norm_num, ?_, rfl, rfl⟩
  have h : (70 : Nat) = 2 + 68 := rfl
  rw [h, stepN_add, step2_emit]
  simp [inner68, cycleEmits]

/-- C9 witness: inner-loop termination with a concrete stale `z`. -/
theorem c9_inner_terminates_witness :
    ∃ n s e, 0 < n ∧ stepN n ⟨Loc.emit, 0, 1, 42⟩ = some (s, e) ∧
      s.loc = Loc.outer ∧ e = cycleEmits :=
  c9_inner_terminates 42

/-- C10: every value the program ever emits — in any number of steps
from program start, with arbitrary initial contents of the
uninitialised variables — is strictly less than 255. -/
theorem c10_emits_lt_255 (n : Nat) (x y z : Int) (s : St) (e : List Int)
    (h : stepN n ⟨Loc.outer, x, y, z⟩ = some (s, e)) :
    ∀ v ∈ e, v < 255 := by
  intro v hv
  have hall : ∀ w ∈ cycleEmits, w < (255 : Int) := by decide
  exact hall v (emitted_mem n x y z s e h v hv)

/-- C10 witness: the below-255 theorem applied to the 73-step run, at
the emitted value 144. -/
theorem c10_emits_lt_255_witness : (144 : Int) < 255 :=
  c10_emits_lt_255 73 0 0 0 ⟨Loc.outer, 377, 610, 610⟩ cycleEmits
    (cycle73 0 0 0) 144 (by decide)

end Fib
